import Mathlib

/-!
Verification of the Markdown-to-Lexical converter of ghosty-posty
(`parseMarkdownToMobiledoc` and its helpers in `main.ts`).

Strings are modelled as `List Char`.  The JavaScript regular expressions of
the source are modelled by explicit scanning functions whose behaviour
mirrors the leftmost-match/backtracking semantics of the concrete regexes
used by the code.  Each definition carries the name of the source function
or regex it embeds.
-/

namespace GhostyPosty

/-- The set of characters matched by JavaScript `\s` / removed by
`String.prototype.trim` (ECMAScript WhiteSpace plus LineTerminator). -/
def jsWhitespace : List Char :=
  [' ', '\t', '\n', '\r', '\x0b', '\x0c',
   '\u00A0', '\u1680', '\u2000', '\u2001', '\u2002', '\u2003', '\u2004',
   '\u2005', '\u2006', '\u2007', '\u2008', '\u2009', '\u200A',
   '\u2028', '\u2029', '\u202F', '\u205F', '\u3000', '\uFEFF']

/-- JavaScript whitespace test (`\s`, and the character class trimmed by
`String.prototype.trim`). -/
def isJsSpace (c : Char) : Bool := jsWhitespace.contains c

/-- JavaScript `String.prototype.trim`: strip leading and trailing
whitespace. -/
def trim (t : List Char) : List Char :=
  ((t.dropWhile isJsSpace).reverse.dropWhile isJsSpace).reverse

/-- JavaScript `content.split('\n\n')`: split on each non-overlapping
occurrence of two consecutive newline characters, scanning left to right.
`acc` holds the (reversed) characters of the piece being accumulated. -/
def splitDoubleNl (acc : List Char) : List Char → List (List Char)
  | '\n' :: '\n' :: rest => acc.reverse :: splitDoubleNl [] rest
  | c :: rest => splitDoubleNl (c :: acc) rest
  | [] => [acc.reverse]

/-- JavaScript `\s+(.+)$` applied to `u` (the part of a line-classifier
regex after its leading marker): at least one whitespace character, then a
non-empty greedy capture.  When `u` is entirely whitespace of length ≥ 2
the backtracking regex still matches, capturing the final character. -/
def wsCapture (u : List Char) : Option (List Char) :=
  match u with
  | [] => none
  | d :: v =>
    if isJsSpace d then
      let r := u.dropWhile isJsSpace
      if r.isEmpty then
        match v, u.getLast? with
        | _ :: _, some x => some [x]
        | _, _ => none
      else some r
    else none

/-- `trimmedLine.match(/^[-*]\s+(.+)$/)`, returning the captured item
text. -/
def bulletMatch (t : List Char) : Option (List Char) :=
  match t with
  | c :: u => if c == '-' || c == '*' then wsCapture u else none
  | [] => none

/-- `trimmedLine.match(/^(\d+)\.\s+(.+)$/)`, returning the captured item
text (group 2; the code ignores the digits of group 1). -/
def numberMatch (t : List Char) : Option (List Char) :=
  if (t.takeWhile Char.isDigit).isEmpty then none
  else
    match t.dropWhile Char.isDigit with
    | '.' :: u => wsCapture u
    | _ => none

/-- `trimmedLine.match(/^(#{1,6})\s+(.+)$/m)`: between one and six leading
`#` characters (a run of seven or more hashes never matches, since `\s`
cannot match the leftover `#`), then whitespace, then the heading text. -/
def headingMatch (t : List Char) : Option (Nat × List Char) :=
  let hs := t.takeWhile (· == '#')
  if 1 ≤ hs.length ∧ hs.length ≤ 6 then
    match wsCapture (t.dropWhile (· == '#')) with
    | some txt => some (hs.length, txt)
    | none => none
  else none

/-- Split `u` at the first occurrence of the two-character sequence `](`
(the boundary the lazy group of `/^!\[(.*?)\]\((.*?)\)$/` stops at),
returning the parts before and after it. -/
def splitAtBrackParen : List Char → Option (List Char × List Char)
  | ']' :: '(' :: v => some ([], v)
  | c :: rest => (splitAtBrackParen rest).map (fun p => (c :: p.1, p.2))
  | [] => none

/-- `trimmedLine.match(/^!\[(.*?)\]\((.*?)\)$/)`: the whole line is image
syntax; returns `(altText, src)`.  The `src` group runs from the first
`](` to the final character, which must be `)`. -/
def imageMatch (t : List Char) : Option (List Char × List Char) :=
  match t with
  | '!' :: '[' :: u =>
    match splitAtBrackParen u with
    | some (alt, v) =>
      match v.getLast? with
      | some ')' => some (alt, v.dropLast)
      | _ => none
    | none => none
  | _ => none

/-- One attempt of `/\[([^\]]+)\]\(([^)]+)\)/` at the current position:
`[`, a non-empty run of non-`]` characters (the label), `](`, a non-empty
run of non-`)` characters (the url), `)`.  Returns
`(label, url, rest-after-the-match)`. -/
def tryLink (t : List Char) : Option (List Char × List Char × List Char) :=
  match t with
  | '[' :: u =>
    let lab := u.takeWhile (· ≠ ']')
    if lab.isEmpty then none
    else
      match u.dropWhile (· ≠ ']') with
      | ']' :: '(' :: v =>
        let url := v.takeWhile (· ≠ ')')
        if url.isEmpty then none
        else
          match v.dropWhile (· ≠ ')') with
          | ')' :: rest => some (lab, url, rest)
          | _ => none
      | _ => none
  | _ => none

/-- Leftmost match of the link regex: scan positions left to right,
accumulating the text before the match (in reverse) in `acc`. -/
def findLinkAux (acc : List Char) (t : List Char) :
    Option (List Char × List Char × List Char × List Char) :=
  match t with
  | [] => none
  | c :: rest =>
    match tryLink (c :: rest) with
    | some (lab, url, r) => some (acc.reverse, lab, url, r)
    | none => findLinkAux (c :: acc) rest

/-- `linkRegex.exec` of `/\[([^\]]+)\]\(([^)]+)\)/g`: the leftmost link
match of `t`, as `(text-before, label, url, text-after)`. -/
def findLink (t : List Char) : Option (List Char × List Char × List Char × List Char) :=
  findLinkAux [] t

/-- The `\*\*([^*]+)\*\*` alternative of the bold regex at the current
position. -/
def tryBoldStar (t : List Char) : Option (List Char × List Char) :=
  match t with
  | '*' :: '*' :: u =>
    let c := u.takeWhile (· ≠ '*')
    if c.isEmpty then none
    else
      match u.dropWhile (· ≠ '*') with
      | '*' :: '*' :: rest => some (c, rest)
      | _ => none
  | _ => none

/-- The `__([^_]+)__` alternative of the bold regex at the current
position.  The source destructures only capture group 1, which is
`undefined` for this alternative, so no content is reported. -/
def tryBoldUnder (t : List Char) : Option (List Char) :=
  match t with
  | '_' :: '_' :: u =>
    let c := u.takeWhile (· ≠ '_')
    if c.isEmpty then none
    else
      match u.dropWhile (· ≠ '_') with
      | '_' :: '_' :: rest => some rest
      | _ => none
  | _ => none

/-- One attempt of `/\*\*([^*]+)\*\*|__([^_]+)__/` at the current
position, trying the `**` alternative first.  The first component is
capture group 1 (`none` when the `__` alternative matched, mirroring the
`undefined` the code passes to `createTextNode`). -/
def tryBold (t : List Char) : Option (Option (List Char) × List Char) :=
  match tryBoldStar t with
  | some (c, rest) => some (some c, rest)
  | none =>
    match tryBoldUnder t with
    | some rest => some (none, rest)
    | none => none

/-- Leftmost match of the bold regex, as
`(text-before, group-1-content, text-after)`. -/
def findBoldAux (acc : List Char) (t : List Char) :
    Option (List Char × Option (List Char) × List Char) :=
  match t with
  | [] => none
  | c :: rest =>
    match tryBold (c :: rest) with
    | some (con, r) => some (acc.reverse, con, r)
    | none => findBoldAux (c :: acc) rest

/-- `boldRegex.exec` of `/\*\*([^*]+)\*\*|__([^_]+)__/g`: the leftmost
bold match of `t`. -/
def findBold (t : List Char) : Option (List Char × Option (List Char) × List Char) :=
  findBoldAux [] t

/-- The lookahead `(?=$|\s|[.,!?;)])` of the italic regex. -/
def italicLookahead : List Char → Bool
  | [] => true
  | c :: _ => isJsSpace c || c == '.' || c == ',' || c == '!' || c == '?' || c == ';' || c == ')'

/-- The `\*([^*]+)\*(?=...)` core of the italic regex, after its prefix
alternation has been resolved: a single `*`, a non-empty run of non-`*`
characters, a closing `*`, and the lookahead (not consumed). -/
def tryItalicCore (t : List Char) : Option (List Char × List Char) :=
  match t with
  | '*' :: u =>
    let c := u.takeWhile (· ≠ '*')
    if c.isEmpty then none
    else
      match u.dropWhile (· ≠ '*') with
      | '*' :: rest => if italicLookahead rest then some (c, rest) else none
      | _ => none
  | _ => none

/-- Leftmost match of `/(?:^|\s|\()\*([^*]+)\*(?=$|\s|[.,!?;)])/g`.
`atStart` records whether the scan is at index 0 of the string the regex
runs over (where the `^` alternative of the prefix can fire); the
returned first component is the text before the first `*` of the match,
including the consumed prefix character when one was used (this is what
the code pushes as plain text via `matchIndex + starIndex`). -/
def findItalicAux (acc : List Char) (atStart : Bool) (t : List Char) :
    Option (List Char × List Char × List Char) :=
  match t with
  | [] => none
  | c :: rest =>
    match (if atStart then tryItalicCore (c :: rest) else none) with
    | some (con, r) => some (acc.reverse, con, r)
    | none =>
      if isJsSpace c || c == '(' then
        match tryItalicCore rest with
        | some (con, r) => some ((c :: acc).reverse, con, r)
        | none => findItalicAux (c :: acc) false rest
      else findItalicAux (c :: acc) false rest

/-- `italicRegex.exec`: leftmost italic match of `t`; `atStart` is true
for the first search of a fresh string (regex `lastIndex` 0). -/
def findItalic (atStart : Bool) (t : List Char) : Option (List Char × List Char × List Char) :=
  findItalicAux [] atStart t

/-! ### Length facts for the scanners (used for termination) -/

theorem tryLink_length {t lab url rest : List Char}
    (h : tryLink t = some (lab, url, rest)) : rest.length < t.length := by
  unfold tryLink at h
  split at h
  · rename_i u
    simp only at h
    split at h
    · exact absurd h (by simp)
    · split at h
      · rename_i v heq
        split at h
        · exact absurd h (by simp)
        · split at h
          · rename_i rest' heq2
            have hd1 := (List.dropWhile_sublist (p := fun x => decide (x ≠ ']')) (l := u)).length_le
            have hd2 := (List.dropWhile_sublist (p := fun x => decide (x ≠ ')')) (l := v)).length_le
            have h1 := congrArg List.length heq
            have h2 := congrArg List.length heq2
            simp only [List.length_cons] at h1 h2
            simp only [Option.some.injEq, Prod.mk.injEq] at h
            obtain ⟨-, -, rfl⟩ := h
            simp only [List.length_cons]
            omega
          · exact absurd h (by simp)
      · exact absurd h (by simp)
  · exact absurd h (by simp)

theorem findLinkAux_length {acc t pre lab url rest : List Char}
    (h : findLinkAux acc t = some (pre, lab, url, rest)) : rest.length < t.length := by
  induction t generalizing acc with
  | nil => simp [findLinkAux] at h
  | cons x xs ih =>
    rw [findLinkAux] at h
    split at h
    · rename_i lab' url' r' heq
      have := tryLink_length heq
      simp only [Option.some.injEq, Prod.mk.injEq] at h
      obtain ⟨-, -, -, rfl⟩ := h
      simpa using this
    · exact Nat.lt_trans (ih h) (by simp)

theorem findLink_length {t pre lab url rest : List Char}
    (h : findLink t = some (pre, lab, url, rest)) : rest.length < t.length :=
  findLinkAux_length h

theorem tryBoldStar_length {t c rest : List Char}
    (h : tryBoldStar t = some (c, rest)) : rest.length < t.length := by
  unfold tryBoldStar at h
  split at h
  · rename_i u
    simp only at h
    split at h
    · exact absurd h (by simp)
    · split at h
      · rename_i rest' heq
        have hd := (List.dropWhile_sublist (p := fun x => decide (x ≠ '*')) (l := u)).length_le
        have h1 := congrArg List.length heq
        simp only [List.length_cons] at h1
        simp only [Option.some.injEq, Prod.mk.injEq] at h
        obtain ⟨-, rfl⟩ := h
        simp only [List.length_cons]
        omega
      · exact absurd h (by simp)
  · exact absurd h (by simp)

theorem tryBoldUnder_length {t : List Char} {rest : List Char}
    (h : tryBoldUnder t = some rest) : rest.length < t.length := by
  unfold tryBoldUnder at h
  split at h
  · rename_i u
    simp only at h
    split at h
    · exact absurd h (by simp)
    · split at h
      · rename_i rest' heq
        have hd := (List.dropWhile_sublist (p := fun x => decide (x ≠ '_')) (l := u)).length_le
        have h1 := congrArg List.length heq
        simp only [List.length_cons] at h1
        simp only [Option.some.injEq] at h
        subst h
        simp only [List.length_cons]
        omega
      · exact absurd h (by simp)
  · exact absurd h (by simp)

theorem tryBold_length {t : List Char} {c : Option (List Char)} {rest : List Char}
    (h : tryBold t = some (c, rest)) : rest.length < t.length := by
  unfold tryBold at h
  split at h
  · rename_i c' rest' heq
    simp only [Option.some.injEq, Prod.mk.injEq] at h
    obtain ⟨-, rfl⟩ := h
    exact tryBoldStar_length heq
  · split at h
    · rename_i rest' heq
      simp only [Option.some.injEq, Prod.mk.injEq] at h
      obtain ⟨-, rfl⟩ := h
      exact tryBoldUnder_length heq
    · exact absurd h (by simp)

theorem findBoldAux_length {acc t : List Char} {pre : List Char} {c : Option (List Char)}
    {rest : List Char} (h : findBoldAux acc t = some (pre, c, rest)) :
    rest.length < t.length := by
  induction t generalizing acc with
  | nil => simp [findBoldAux] at h
  | cons x xs ih =>
    rw [findBoldAux] at h
    split at h
    · rename_i c' r' heq
      have := tryBold_length heq
      simp only [Option.some.injEq, Prod.mk.injEq] at h
      obtain ⟨-, -, rfl⟩ := h
      simpa using this
    · exact Nat.lt_trans (ih h) (by simp)

theorem findBold_length {t pre : List Char} {c : Option (List Char)} {rest : List Char}
    (h : findBold t = some (pre, c, rest)) : rest.length < t.length :=
  findBoldAux_length h

theorem tryItalicCore_length {t c rest : List Char}
    (h : tryItalicCore t = some (c, rest)) : rest.length < t.length := by
  unfold tryItalicCore at h
  split at h
  · rename_i u
    simp only at h
    split at h
    · exact absurd h (by simp)
    · split at h
      · rename_i rest' heq
        split at h
        · have hd := (List.dropWhile_sublist (p := fun x => decide (x ≠ '*')) (l := u)).length_le
          have h1 := congrArg List.length heq
          simp only [List.length_cons] at h1
          simp only [Option.some.injEq, Prod.mk.injEq] at h
          obtain ⟨-, rfl⟩ := h
          simp only [List.length_cons]
          omega
        · exact absurd h (by simp)
      · exact absurd h (by simp)
  · exact absurd h (by simp)

theorem findItalicAux_length {acc t : List Char} {atStart : Bool} {pre c rest : List Char}
    (h : findItalicAux acc atStart t = some (pre, c, rest)) : rest.length < t.length := by
  induction t generalizing acc atStart with
  | nil => simp [findItalicAux] at h
  | cons x xs ih =>
    rw [findItalicAux] at h
    split at h
    · rename_i c' r' heq
      split at heq
      · have := tryItalicCore_length heq
        simp only [Option.some.injEq, Prod.mk.injEq] at h
        obtain ⟨-, -, rfl⟩ := h
        simpa using this
      · exact absurd heq (by simp)
    · split at h
      · split at h
        · rename_i c' r' heq
          have := tryItalicCore_length heq
          simp only [Option.some.injEq, Prod.mk.injEq] at h
          obtain ⟨-, -, rfl⟩ := h
          simp only [List.length_cons]
          omega
        · exact Nat.lt_trans (ih h) (by simp)
      · exact Nat.lt_trans (ih h) (by simp)

theorem findItalic_length {atStart : Bool} {t pre c rest : List Char}
    (h : findItalic atStart t = some (pre, c, rest)) : rest.length < t.length :=
  findItalicAux_length h

/-! ### The node model (the `LexicalNode` records built by the code).

Each constructor carries exactly the data that varies between instances
of the corresponding object literal in `parseMarkdownToMobiledoc`; the
fixed fields of each literal (`direction`, `format`, `indent`,
`version`, ...) are attached by `nodeToJson` below, which mirrors the
literals field by field. -/

inductive LType where
  | bullet
  | number
  deriving DecidableEq

inductive LNode where
  | etext (format : Nat) (text : Option (List Char))
  | link (url : List Char) (children : List LNode)
  | paragraph (children : List LNode)
  | list (listType : Option LType) (children : List LNode)
  | listitem (children : List LNode)
  | horizontalrule
  | heading (level : Nat) (children : List LNode)
  | quote (children : List LNode)
  | image (alt : List Char) (src : List Char)

/-- `createTextNode(text, format = 0)`.  `text` is an `Option` because the
bold branch passes capture group 1, which is `undefined` when the `__`
alternative of the bold regex matched. -/
def createTextNode (text : Option (List Char)) (format : Nat := 0) : LNode :=
  .etext format text

/-- `createParagraphNode(children)`. -/
def createParagraphNode (children : List LNode) : LNode := .paragraph children

/-- `createListNode(listItems, listType)`.  The `listType` is an `Option`
because the code reads `currentListType!`, a TypeScript non-null
assertion that is erased at runtime and would pass `null` through. -/
def createListNode (listItems : List LNode) (listType : Option LType) : LNode :=
  .list listType listItems

/-- `createListItemNode(children)`. -/
def createListItemNode (children : List LNode) : LNode := .listitem children

/-! ### The inline markup resolver (`processTextWithMarkup` /
`processItalicText`). -/

/-- The `while ((italicMatch = italicRegex.exec(text)))` loop of
`processItalicText`: before each italic match, the text from the previous
match end up to the first `*` of the match (including the consumed prefix
character) is pushed as a plain text node when non-empty; the content is
pushed with format 2; after the loop the remaining text is pushed when
non-empty.  `atStart` is true for the first search only. -/
def italicLoop (atStart : Bool) (t : List Char) : List LNode :=
  match h : findItalic atStart t with
  | some (pre, con, rest) =>
    (if pre.isEmpty then [] else [createTextNode (some pre)]) ++
      [createTextNode (some con) 2] ++ italicLoop false rest
  | none => if t.isEmpty then [] else [createTextNode (some t)]
termination_by t.length
decreasing_by exact findItalic_length h

/-- `processItalicText(text)`: run the italic loop; if it produced no
nodes (which happens exactly for the empty string), return a single plain
text node holding `text`. -/
def processItalicText (t : List Char) : List LNode :=
  let nodes := italicLoop true t
  if nodes.isEmpty then [createTextNode (some t)] else nodes

/-- The bold-processing section of `processTextWithMarkup`, applied to the
text after the last link match: before each bold match the preceding text
is run through `processItalicText` when non-empty; the bold content
(capture group 1) is pushed with format 1; the text after the last bold
match is run through `processItalicText` when non-empty.  The leading
`isEmpty` test models the `lastIndex < text.length` /
`boldLastIndex < remainingText.length` guards of the source. -/
def boldLoop (t : List Char) : List LNode :=
  if t.isEmpty then []
  else
    match h : findBold t with
    | some (pre, con, rest) =>
      (if pre.isEmpty then [] else processItalicText pre) ++
        [createTextNode con 1] ++ boldLoop rest
    | none => processItalicText t
termination_by t.length
decreasing_by exact findBold_length h

/-- The link-processing loop of `processTextWithMarkup`: for each link
match, the text before it is pushed as one plain text node (bold and
italic are NOT resolved there); the link node holds the label as a single
plain text node; the text remaining after the last link (or the whole
text when no link matched) goes through the bold/italic passes. -/
def linkLoop (t : List Char) : List LNode :=
  match h : findLink t with
  | some (pre, lab, url, rest) =>
    (if pre.isEmpty then [] else [createTextNode (some pre)]) ++
      [LNode.link url [createTextNode (some lab)]] ++ linkLoop rest
  | none => if t.isEmpty then [] else boldLoop t
termination_by t.length
decreasing_by exact findLink_length h

/-- `processTextWithMarkup(text)`. -/
def processTextWithMarkup (t : List Char) : List LNode := linkLoop t

/-! ### Rewriting equations for the well-founded loops. -/

theorem italicLoop_some {atStart : Bool} {t pre con rest : List Char}
    (h : findItalic atStart t = some (pre, con, rest)) :
    italicLoop atStart t =
      (if pre.isEmpty then [] else [createTextNode (some pre)]) ++
        [createTextNode (some con) 2] ++ italicLoop false rest := by
  rw [italicLoop, h]

theorem italicLoop_none {atStart : Bool} {t : List Char}
    (h : findItalic atStart t = none) :
    italicLoop atStart t = if t.isEmpty then [] else [createTextNode (some t)] := by
  rw [italicLoop, h]

theorem boldLoop_some {t pre rest : List Char} {con : Option (List Char)}
    (hne : t.isEmpty = false) (h : findBold t = some (pre, con, rest)) :
    boldLoop t =
      (if pre.isEmpty then [] else processItalicText pre) ++
        [createTextNode con 1] ++ boldLoop rest := by
  rw [boldLoop, hne, h]
  simp

theorem boldLoop_none {t : List Char} (hne : t.isEmpty = false)
    (h : findBold t = none) : boldLoop t = processItalicText t := by
  rw [boldLoop, hne, h]
  simp

theorem boldLoop_nil : boldLoop [] = [] := by
  rw [boldLoop]
  simp

theorem linkLoop_some {t pre lab url rest : List Char}
    (h : findLink t = some (pre, lab, url, rest)) :
    linkLoop t =
      (if pre.isEmpty then [] else [createTextNode (some pre)]) ++
        [LNode.link url [createTextNode (some lab)]] ++ linkLoop rest := by
  rw [linkLoop, h]

theorem linkLoop_none {t : List Char} (h : findLink t = none) :
    linkLoop t = if t.isEmpty then [] else boldLoop t := by
  rw [linkLoop, h]

/-! ### The block segmenter (the line-processing loop of
`parseMarkdownToMobiledoc`). -/

/-- The mutable scan state of the loop: the accumulated `rootChildren`
and the `currentListItems` / `currentListType` variables (both nullable
in the source, hence `Option`). -/
structure SegState where
  children : List LNode
  items : Option (List LNode)
  ltype : Option LType

/-- `rootChildren.push(createListNode(currentListItems, currentListType!))`
guarded by `if (currentListItems)`: the children with the open list (if
any) appended as a finished list node. -/
def flushList (st : SegState) : List LNode :=
  match st.items with
  | some is => st.children ++ [createListNode is st.ltype]
  | none => st.children

/-- The list-item branch of the line loop: close the open list when absent
or of a different kind, then append the new `ListItem` to the (possibly
fresh) open list. -/
def handleListLine (st : SegState) (lt : LType) (txt : List Char) : SegState :=
  let st1 : SegState :=
    if st.items.isNone || decide (st.ltype ≠ some lt) then
      { children := flushList st, items := some [], ltype := some lt }
    else st
  { st1 with
    items := some ((st1.items.getD []) ++
      [createListItemNode [createParagraphNode (processTextWithMarkup txt)]]) }

/-- The non-list classification of one trimmed line (the horizontal
rule / heading / blockquote / image / fallback-paragraph branches of the
line loop, in source order): the single block node appended to
`rootChildren` for this line. -/
def classifyBlock (t : List Char) : LNode :=
  if t = ['-', '-', '-'] then .horizontalrule
  else
    match headingMatch t with
    | some (lvl, txt) => .heading lvl (processTextWithMarkup (trim txt))
    | none =>
      match t with
      | '>' :: u => .quote [createParagraphNode (processTextWithMarkup (trim u))]
      | _ =>
        match imageMatch t with
        | some (alt, srcUrl) => .image alt srcUrl
        | none => createParagraphNode (processTextWithMarkup t)

/-- One iteration of `lines.forEach` in `parseMarkdownToMobiledoc`:
trim the line, try the bullet and ordered list patterns, otherwise close
any open list and classify the line as horizontal rule, heading,
blockquote, image, or fallback paragraph — in exactly the order of the
source. -/
def processLine (st : SegState) (line : List Char) : SegState :=
  let t := trim line
  match bulletMatch t with
  | some txt => handleListLine st .bullet txt
  | none =>
    match numberMatch t with
    | some txt => handleListLine st .number txt
    | none =>
      { children := flushList st ++ [classifyBlock t], items := none, ltype := none }

/-- `block.split('\n').filter(line => line.trim())`. -/
def blockLines (b : List Char) : List (List Char) :=
  (b.splitOn '\n').filter (fun l => !(trim l).isEmpty)

/-- `content.split('\n\n').filter(p => p.trim())`. -/
def paragraphBlocks (content : List Char) : List (List Char) :=
  (splitDoubleNl [] content).filter (fun p => !(trim p).isEmpty)

/-- The initial scan state: empty children, no open list. -/
def initialState : SegState := ⟨[], none, none⟩

/-- The block/line loops of `parseMarkdownToMobiledoc` followed by the
final `if (currentListItems)` flush: the ordered `rootChildren` of the
produced document. -/
def segmentChildren (content : List Char) : List LNode :=
  flushList ((paragraphBlocks content).foldl
    (fun st b => (blockLines b).foldl processLine st) initialState)

/-! ### Serialization (the JSON value `JSON.stringify` receives).

`undefined`-valued properties (`width`, `height`, `caption` on images and
`text` on a text node built from an `undefined` capture) are dropped by
`JSON.stringify`, so `nodeToJson` omits them. -/

inductive Json where
  | str (s : String)
  | num (n : Nat)
  | bool (b : Bool)
  | null
  | arr (xs : List Json)
  | obj (fields : List (String × Json))

mutual

/-- The JSON object for one node, field for field and in insertion order
the object literal of the source that builds it. -/
def nodeToJson : LNode → Json
  | .etext f txt =>
    .obj ([("type", .str "extended-text"), ("detail", .num 0), ("format", .num f),
      ("mode", .str "normal"), ("style", .str "")] ++
      (match txt with
       | some s => [("text", .str (String.mk s))]
       | none => []) ++ [("version", .num 1)])
  | .link url ch =>
    .obj [("type", .str "link"), ("url", .str (String.mk url)),
      ("children", .arr (nodesToJson ch)), ("direction", .str "ltr"),
      ("format", .num 0), ("indent", .num 0), ("version", .num 1)]
  | .paragraph ch =>
    .obj [("type", .str "paragraph"), ("children", .arr (nodesToJson ch)),
      ("direction", .str "ltr"), ("format", .num 0), ("indent", .num 0),
      ("version", .num 1)]
  | .list lt ch =>
    .obj [("type", .str "list"),
      ("listType", match lt with
        | some .bullet => .str "bullet"
        | some .number => .str "number"
        | none => .null),
      ("start", .num 1), ("children", .arr (nodesToJson ch)),
      ("direction", .str "ltr"), ("format", .num 0), ("indent", .num 0),
      ("version", .num 1)]
  | .listitem ch =>
    .obj [("type", .str "listitem"), ("children", .arr (nodesToJson ch)),
      ("direction", .str "ltr"), ("format", .num 0), ("indent", .num 0),
      ("value", .num 1), ("version", .num 1)]
  | .horizontalrule =>
    .obj [("type", .str "horizontalrule"), ("version", .num 1)]
  | .heading lvl ch =>
    .obj [("type", .str "heading"), ("tag", .str ("h" ++ toString lvl)),
      ("children", .arr (nodesToJson ch)), ("direction", .str "ltr"),
      ("format", .num 0), ("indent", .num 0), ("version", .num 1)]
  | .quote ch =>
    .obj [("type", .str "quote"), ("children", .arr (nodesToJson ch)),
      ("direction", .str "ltr"), ("format", .num 0), ("indent", .num 0),
      ("version", .num 1)]
  | .image alt srcUrl =>
    .obj [("type", .str "image"), ("src", .str (String.mk srcUrl)),
      ("altText", .str (String.mk alt)), ("maxWidth", .str "100%"),
      ("showCaption", .bool false), ("direction", .str "ltr"),
      ("format", .num 0), ("indent", .num 0), ("version", .num 1)]

/-- Serialize a list of nodes. -/
def nodesToJson : List LNode → List Json
  | [] => []
  | n :: ns => nodeToJson n :: nodesToJson ns

end

/-- The root wrapper `{ root: { type: "root", children, direction, format,
indent, version } }`. -/
def rootJson (cs : List LNode) : Json :=
  .obj [("root", .obj [("type", .str "root"), ("children", .arr (nodesToJson cs)),
    ("direction", .str "ltr"), ("format", .num 0), ("indent", .num 0),
    ("version", .num 1)])]

/-- `parseMarkdownToMobiledoc(content)`: the JSON document handed to
`JSON.stringify`. -/
def parseMarkdownToMobiledoc (content : List Char) : Json :=
  rootJson (segmentChildren content)

/-! ### Visible text of an inline sequence (claim C1's left-hand side). -/

mutual

/-- The visible text a single inline node contributes: a text node
contributes its content (nothing when the content is the `undefined` of
the `__` bold branch), a link contributes its label text.  Block
constructors never occur inside an inline sequence and contribute
nothing. -/
def inlineText : LNode → List Char
  | .etext _ (some s) => s
  | .etext _ none => []
  | .link _ ch => inlineTexts ch
  | _ => []

/-- Concatenated visible text of an inline node sequence. -/
def inlineTexts : List LNode → List Char
  | [] => []
  | n :: ns => inlineText n ++ inlineTexts ns

end

/-! ### The text the resolver actually preserves, computed directly on
the string.  These three functions mirror the three passes of
`processTextWithMarkup`: they drop exactly the delimiters of the
constructs each pass recognizes and keep everything else verbatim. -/

/-- Text preserved by the italic pass: the `*` delimiters of recognized
italic spans are dropped, everything else kept. -/
def visibleTextItalic (atStart : Bool) (t : List Char) : List Char :=
  match h : findItalic atStart t with
  | some (pre, con, rest) => pre ++ con ++ visibleTextItalic false rest
  | none => t
termination_by t.length
decreasing_by exact findItalic_length h

/-- Text preserved by the bold pass: the `**` delimiters of recognized
star-bold spans are dropped; a recognized `__text__` span disappears
entirely (the code reads only capture group 1, which is `undefined`
there); text between matches goes through the italic pass. -/
def visibleTextBold (t : List Char) : List Char :=
  if t.isEmpty then []
  else
    match h : findBold t with
    | some (pre, con, rest) =>
      (if pre.isEmpty then [] else visibleTextItalic true pre) ++
        con.getD [] ++ visibleTextBold rest
    | none => visibleTextItalic true t
termination_by t.length
decreasing_by exact findBold_length h

/-- Text preserved by the whole resolver: each recognized link keeps its
label and the text before it verbatim (markup characters included); only
the text after the last link goes through the bold and italic passes. -/
def visibleText (t : List Char) : List Char :=
  match h : findLink t with
  | some (pre, lab, _, rest) => pre ++ lab ++ visibleText rest
  | none => if t.isEmpty then [] else visibleTextBold t
termination_by t.length
decreasing_by exact findLink_length h

theorem visibleTextItalic_some {atStart : Bool} {t pre con rest : List Char}
    (h : findItalic atStart t = some (pre, con, rest)) :
    visibleTextItalic atStart t = pre ++ con ++ visibleTextItalic false rest := by
  rw [visibleTextItalic, h]

theorem visibleTextItalic_none {atStart : Bool} {t : List Char}
    (h : findItalic atStart t = none) : visibleTextItalic atStart t = t := by
  rw [visibleTextItalic, h]

theorem visibleTextBold_some {t pre rest : List Char} {con : Option (List Char)}
    (hne : t.isEmpty = false) (h : findBold t = some (pre, con, rest)) :
    visibleTextBold t =
      (if pre.isEmpty then [] else visibleTextItalic true pre) ++
        con.getD [] ++ visibleTextBold rest := by
  rw [visibleTextBold, hne, h]
  simp

theorem visibleTextBold_none {t : List Char} (hne : t.isEmpty = false)
    (h : findBold t = none) : visibleTextBold t = visibleTextItalic true t := by
  rw [visibleTextBold, hne, h]
  simp

theorem visibleText_some {t pre lab url rest : List Char}
    (h : findLink t = some (pre, lab, url, rest)) :
    visibleText t = pre ++ lab ++ visibleText rest := by
  rw [visibleText, h]

theorem visibleText_none {t : List Char} (h : findLink t = none) :
    visibleText t = if t.isEmpty then [] else visibleTextBold t := by
  rw [visibleText, h]

/-! ### The two sides of the content-preservation claim (C1).

The claim compares the markup-STRIPPED concatenation of the resolver's
output with "the original line with Markdown syntax characters removed".
Following the spec's words, stripping style markers means deleting the
`*`, `_` and backtick marker characters, and removing Markdown syntax
from the line additionally replaces each recognized link by its label. -/

/-- Delete the style-marker characters `*`, `_` and backtick (U+0060). -/
def deleteStyleChars (t : List Char) : List Char :=
  t.filter (fun c => !(c == '*' || c == '_' || c == Char.ofNat 96))

/-- Replace every recognized link (the link regex of the source, scanned
left to right) by its label, leaving all other text unchanged. -/
def linkOnlyStrip (t : List Char) : List Char :=
  match h : findLink t with
  | some (pre, lab, _, rest) => pre ++ lab ++ linkOnlyStrip rest
  | none => t
termination_by t.length
decreasing_by exact findLink_length h

theorem linkOnlyStrip_some {t pre lab url rest : List Char}
    (h : findLink t = some (pre, lab, url, rest)) :
    linkOnlyStrip t = pre ++ lab ++ linkOnlyStrip rest := by
  rw [linkOnlyStrip, h]

theorem linkOnlyStrip_none {t : List Char} (h : findLink t = none) :
    linkOnlyStrip t = t := by
  rw [linkOnlyStrip, h]

/-- The claim's right-hand side: the original line with Markdown syntax
characters removed (recognized links replaced by their labels, style
marker characters deleted). -/
def markdownStripped (t : List Char) : List Char :=
  deleteStyleChars (linkOnlyStrip t)

/-! ### Structural predicates on nodes. -/

mutual

/-- Every text node in this subtree carries one of the three format
codes the converter uses: 0 (plain), 1 (bold), 2 (italic). -/
def fmtOKNode : LNode → Bool
  | .etext f _ => f == 0 || f == 1 || f == 2
  | .link _ ch => fmtOKNodes ch
  | .paragraph ch => fmtOKNodes ch
  | .list _ ch => fmtOKNodes ch
  | .listitem ch => fmtOKNodes ch
  | .horizontalrule => true
  | .heading _ ch => fmtOKNodes ch
  | .quote ch => fmtOKNodes ch
  | .image _ _ => true

/-- `fmtOKNode` over a list of nodes. -/
def fmtOKNodes : List LNode → Bool
  | [] => true
  | n :: ns => fmtOKNode n && fmtOKNodes ns

end

mutual

/-- A node together with all its descendants, in preorder. -/
def collectNode : LNode → List LNode
  | .etext f s => [.etext f s]
  | .link u ch => .link u ch :: collectNodes ch
  | .paragraph ch => .paragraph ch :: collectNodes ch
  | .list lt ch => .list lt ch :: collectNodes ch
  | .listitem ch => .listitem ch :: collectNodes ch
  | .horizontalrule => [.horizontalrule]
  | .heading l ch => .heading l ch :: collectNodes ch
  | .quote ch => .quote ch :: collectNodes ch
  | .image a s => [.image a s]

/-- All nodes of a forest, in preorder. -/
def collectNodes : List LNode → List LNode
  | [] => []
  | n :: ns => collectNode n ++ collectNodes ns

end

/-- Field lookup in a serialized JSON object. -/
def getField (j : Json) (k : String) : Option Json :=
  match j with
  | .obj fs => fs.lookup k
  | _ => none

/-- What the serialized object of a node actually carries of the
structural fields `direction`, `format`, `indent`, `version`: text
nodes have `format` (their style code, one of 0/1/2) and `version` but
no `direction` or `indent`; a horizontal rule has only `type` and
`version`; every other node has all four fields with the fixed values
`"ltr"`, 0, 0, 1. -/
def nodeFieldsOK (n : LNode) : Prop :=
  match n with
  | .etext f _ =>
      getField (nodeToJson n) "version" = some (.num 1) ∧
      getField (nodeToJson n) "format" = some (.num f) ∧
      getField (nodeToJson n) "direction" = none ∧
      getField (nodeToJson n) "indent" = none ∧
      (f = 0 ∨ f = 1 ∨ f = 2)
  | .horizontalrule =>
      nodeToJson n = .obj [("type", .str "horizontalrule"), ("version", .num 1)]
  | _ =>
      getField (nodeToJson n) "direction" = some (.str "ltr") ∧
      getField (nodeToJson n) "format" = some (.num 0) ∧
      getField (nodeToJson n) "indent" = some (.num 0) ∧
      getField (nodeToJson n) "version" = some (.num 1)

/-- A list node is non-empty; other nodes are unconstrained. -/
def listNonempty : LNode → Prop
  | .list _ is => is ≠ []
  | _ => True

/-! ### Resolver-level lemmas. -/

theorem inlineTexts_append (a b : List LNode) :
    inlineTexts (a ++ b) = inlineTexts a ++ inlineTexts b := by
  induction a with
  | nil => simp [inlineTexts]
  | cons n ns ih => simp [inlineTexts, ih]

theorem vis_italicLoop (atStart : Bool) (t : List Char) :
    inlineTexts (italicLoop atStart t) = visibleTextItalic atStart t := by
  cases h : findItalic atStart t with
  | some x =>
    obtain ⟨pre, con, rest⟩ := x
    rw [italicLoop_some h, visibleTextItalic_some h, inlineTexts_append, inlineTexts_append,
      vis_italicLoop false rest]
    rcases pre with - | ⟨c, cs⟩
    · simp [inlineTexts, inlineText, createTextNode]
    · simp [inlineTexts, inlineText, createTextNode]
  | none =>
    rw [italicLoop_none h, visibleTextItalic_none h]
    rcases t with - | ⟨c, cs⟩
    · simp [inlineTexts]
    · simp [inlineTexts, inlineText, createTextNode]
termination_by t.length
decreasing_by exact findItalic_length h

theorem vis_processItalicText (t : List Char) :
    inlineTexts (processItalicText t) = visibleTextItalic true t := by
  cases h : findItalic true t with
  | some x =>
    obtain ⟨pre, con, rest⟩ := x
    have hrw := italicLoop_some h
    unfold processItalicText
    rw [hrw]
    have hne : ((if pre.isEmpty then [] else [createTextNode (some pre)]) ++
        [createTextNode (some con) 2] ++ italicLoop false rest).isEmpty = false := by
      simp
    simp only [hne, Bool.false_eq_true, if_false]
    rw [← hrw, vis_italicLoop true t]
  | none =>
    unfold processItalicText
    rw [italicLoop_none h, visibleTextItalic_none h]
    rcases t with - | ⟨c, cs⟩
    · simp [inlineTexts, inlineText, createTextNode]
    · simp [inlineTexts, inlineText, createTextNode]

theorem vis_boldLoop (t : List Char) :
    inlineTexts (boldLoop t) = visibleTextBold t := by
  rcases ht : t.isEmpty with - | -
  · cases h : findBold t with
    | some x =>
      obtain ⟨pre, con, rest⟩ := x
      rw [boldLoop_some ht h, visibleTextBold_some ht h, inlineTexts_append, inlineTexts_append,
        vis_boldLoop rest]
      have hpre : inlineTexts (if pre.isEmpty then [] else processItalicText pre) =
          (if pre.isEmpty then [] else visibleTextItalic true pre) := by
        rcases hp : pre.isEmpty with - | -
        · simp only [hp, Bool.false_eq_true, if_false]
          exact vis_processItalicText pre
        · simp [hp, inlineTexts]
      rw [hpre]
      cases con <;> simp [inlineTexts, inlineText, createTextNode]
    | none =>
      rw [boldLoop_none ht h, visibleTextBold_none ht h]
      exact vis_processItalicText t
  · have ht' : t = [] := List.isEmpty_iff.mp ht
    subst ht'
    rw [boldLoop_nil, visibleTextBold]
    simp [inlineTexts]
termination_by t.length
decreasing_by exact findBold_length h

theorem vis_linkLoop (t : List Char) :
    inlineTexts (linkLoop t) = visibleText t := by
  cases h : findLink t with
  | some x =>
    obtain ⟨pre, lab, url, rest⟩ := x
    rw [linkLoop_some h, visibleText_some h, inlineTexts_append, inlineTexts_append,
      vis_linkLoop rest]
    rcases pre with - | ⟨c, cs⟩
    · simp [inlineTexts, inlineText, createTextNode]
    · simp [inlineTexts, inlineText, createTextNode]
  | none =>
    rw [linkLoop_none h, visibleText_none h]
    rcases ht : t.isEmpty with - | -
    · simp only [ht, Bool.false_eq_true, if_false]
      exact vis_boldLoop t
    · simp [inlineTexts]
termination_by t.length
decreasing_by exact findLink_length h

theorem fmtOKNodes_append (a b : List LNode) :
    fmtOKNodes (a ++ b) = (fmtOKNodes a && fmtOKNodes b) := by
  induction a with
  | nil => simp [fmtOKNodes]
  | cons n ns ih => simp [fmtOKNodes, ih, Bool.and_assoc]

theorem fmt_italicLoop (atStart : Bool) (t : List Char) :
    fmtOKNodes (italicLoop atStart t) = true := by
  cases h : findItalic atStart t with
  | some x =>
    obtain ⟨pre, con, rest⟩ := x
    rw [italicLoop_some h]
    rw [fmtOKNodes_append, fmtOKNodes_append, fmt_italicLoop false rest]
    rcases pre with - | ⟨c, cs⟩ <;> simp [fmtOKNodes, fmtOKNode, createTextNode]
  | none =>
    rw [italicLoop_none h]
    rcases t with - | ⟨c, cs⟩ <;> simp [fmtOKNodes, fmtOKNode, createTextNode]
termination_by t.length
decreasing_by exact findItalic_length h

theorem fmt_processItalicText (t : List Char) :
    fmtOKNodes (processItalicText t) = true := by
  unfold processItalicText
  rcases he : (italicLoop true t).isEmpty with - | -
  · simpa [he] using fmt_italicLoop true t
  · simp [he, fmtOKNodes, fmtOKNode, createTextNode]

theorem fmt_boldLoop (t : List Char) : fmtOKNodes (boldLoop t) = true := by
  rcases ht : t.isEmpty with - | -
  · cases h : findBold t with
    | some x =>
      obtain ⟨pre, con, rest⟩ := x
      rw [boldLoop_some ht h, fmtOKNodes_append, fmtOKNodes_append, fmt_boldLoop rest]
      have hpre : fmtOKNodes (if pre.isEmpty then [] else processItalicText pre) = true := by
        rcases pre.isEmpty with - | - <;> simp [fmtOKNodes, fmt_processItalicText]
      rw [hpre]
      simp [fmtOKNodes, fmtOKNode, createTextNode]
    | none =>
      rw [boldLoop_none ht h]
      exact fmt_processItalicText t
  · have ht' : t = [] := List.isEmpty_iff.mp ht
    subst ht'
    rw [boldLoop_nil]
    simp [fmtOKNodes]
termination_by t.length
decreasing_by exact findBold_length h

theorem fmt_linkLoop (t : List Char) : fmtOKNodes (linkLoop t) = true := by
  cases h : findLink t with
  | some x =>
    obtain ⟨pre, lab, url, rest⟩ := x
    rw [linkLoop_some h, fmtOKNodes_append, fmtOKNodes_append, fmt_linkLoop rest]
    rcases pre with - | ⟨c, cs⟩ <;>
      simp [fmtOKNodes, fmtOKNode, createTextNode]
  | none =>
    rw [linkLoop_none h]
    rcases ht : t.isEmpty with - | -
    · simpa [ht] using fmt_boldLoop t
    · simp [ht, fmtOKNodes]
termination_by t.length
decreasing_by exact findLink_length h


/-! ### Field facts per node constructor. -/

theorem collectNodes_append (a b : List LNode) :
    collectNodes (a ++ b) = collectNodes a ++ collectNodes b := by
  induction a with
  | nil => simp [collectNodes]
  | cons n ns ih => simp [collectNodes, ih]

theorem nodeFieldsOK_etext {f : Nat} (txt : Option (List Char))
    (hf : f = 0 ∨ f = 1 ∨ f = 2) : nodeFieldsOK (.etext f txt) := by
  cases txt <;> exact ⟨rfl, rfl, rfl, rfl, hf⟩

theorem nodeFieldsOK_link (url : List Char) (ch : List LNode) :
    nodeFieldsOK (.link url ch) := ⟨rfl, rfl, rfl, rfl⟩

theorem nodeFieldsOK_paragraph (ch : List LNode) : nodeFieldsOK (.paragraph ch) :=
  ⟨rfl, rfl, rfl, rfl⟩

theorem nodeFieldsOK_list (lt : Option LType) (ch : List LNode) :
    nodeFieldsOK (.list lt ch) := ⟨rfl, rfl, rfl, rfl⟩

theorem nodeFieldsOK_listitem (ch : List LNode) : nodeFieldsOK (.listitem ch) :=
  ⟨rfl, rfl, rfl, rfl⟩

theorem nodeFieldsOK_horizontalrule : nodeFieldsOK .horizontalrule := rfl

theorem nodeFieldsOK_heading (lvl : Nat) (ch : List LNode) :
    nodeFieldsOK (.heading lvl ch) := ⟨rfl, rfl, rfl, rfl⟩

theorem nodeFieldsOK_quote (ch : List LNode) : nodeFieldsOK (.quote ch) :=
  ⟨rfl, rfl, rfl, rfl⟩

theorem nodeFieldsOK_image (alt srcUrl : List Char) :
    nodeFieldsOK (.image alt srcUrl) := ⟨rfl, rfl, rfl, rfl⟩

/-! ### Every node the resolver emits satisfies `nodeFieldsOK`. -/

theorem fields_italicLoop (atStart : Bool) (t : List Char) :
    ∀ m ∈ collectNodes (italicLoop atStart t), nodeFieldsOK m := by
  intro m hm
  cases h : findItalic atStart t with
  | some x =>
    obtain ⟨pre, con, rest⟩ := x
    rw [italicLoop_some h, collectNodes_append, collectNodes_append] at hm
    simp only [List.mem_append] at hm
    rcases hm with (hm | hm) | hm
    · rcases pre with - | ⟨c, cs⟩
      · simp [collectNodes] at hm
      · simp [collectNodes, collectNode, createTextNode] at hm
        subst hm
        exact nodeFieldsOK_etext _ (Or.inl rfl)
    · simp [collectNodes, collectNode, createTextNode] at hm
      subst hm
      exact nodeFieldsOK_etext _ (Or.inr (Or.inr rfl))
    · exact fields_italicLoop false rest m hm
  | none =>
    rw [italicLoop_none h] at hm
    rcases t with - | ⟨c, cs⟩
    · simp [collectNodes] at hm
    · simp [collectNodes, collectNode, createTextNode] at hm
      subst hm
      exact nodeFieldsOK_etext _ (Or.inl rfl)
termination_by t.length
decreasing_by exact findItalic_length h

theorem fields_processItalicText (t : List Char) :
    ∀ m ∈ collectNodes (processItalicText t), nodeFieldsOK m := by
  intro m hm
  unfold processItalicText at hm
  rcases he : (italicLoop true t).isEmpty with - | -
  · simp only [he, Bool.false_eq_true, if_false] at hm
    exact fields_italicLoop true t m hm
  · simp only [he, if_true] at hm
    simp [collectNodes, collectNode, createTextNode] at hm
    subst hm
    exact nodeFieldsOK_etext _ (Or.inl rfl)

theorem fields_boldLoop (t : List Char) :
    ∀ m ∈ collectNodes (boldLoop t), nodeFieldsOK m := by
  intro m hm
  rcases ht : t.isEmpty with - | -
  · cases h : findBold t with
    | some x =>
      obtain ⟨pre, con, rest⟩ := x
      rw [boldLoop_some ht h, collectNodes_append, collectNodes_append] at hm
      simp only [List.mem_append] at hm
      rcases hm with (hm | hm) | hm
      · rcases hp : pre.isEmpty with - | -
        · simp only [hp, Bool.false_eq_true, if_false] at hm
          exact fields_processItalicText pre m hm
        · simp [hp, collectNodes] at hm
      · simp [collectNodes, collectNode, createTextNode] at hm
        subst hm
        exact nodeFieldsOK_etext _ (Or.inr (Or.inl rfl))
      · exact fields_boldLoop rest m hm
    | none =>
      rw [boldLoop_none ht h] at hm
      exact fields_processItalicText t m hm
  · have ht' : t = [] := List.isEmpty_iff.mp ht
    subst ht'
    rw [boldLoop_nil] at hm
    simp [collectNodes] at hm
termination_by t.length
decreasing_by exact findBold_length h

theorem fields_linkLoop (t : List Char) :
    ∀ m ∈ collectNodes (linkLoop t), nodeFieldsOK m := by
  intro m hm
  cases h : findLink t with
  | some x =>
    obtain ⟨pre, lab, url, rest⟩ := x
    rw [linkLoop_some h, collectNodes_append, collectNodes_append] at hm
    simp only [List.mem_append] at hm
    rcases hm with (hm | hm) | hm
    · rcases pre with - | ⟨c, cs⟩
      · simp [collectNodes] at hm
      · simp [collectNodes, collectNode, createTextNode] at hm
        subst hm
        exact nodeFieldsOK_etext _ (Or.inl rfl)
    · simp [collectNodes, collectNode, createTextNode] at hm
      rcases hm with hm | hm
      · subst hm
        exact nodeFieldsOK_link _ _
      · subst hm
        exact nodeFieldsOK_etext _ (Or.inl rfl)
    · exact fields_linkLoop rest m hm
  | none =>
    rw [linkLoop_none h] at hm
    rcases ht : t.isEmpty with - | -
    · simp only [ht, Bool.false_eq_true, if_false] at hm
      exact fields_boldLoop t m hm
    · simp [ht, collectNodes] at hm
termination_by t.length
decreasing_by exact findLink_length h

theorem fields_processTextWithMarkup (t : List Char) :
    ∀ m ∈ collectNodes (processTextWithMarkup t), nodeFieldsOK m :=
  fields_linkLoop t

/-! ### Segment-level invariant: lists are never empty and every emitted
node carries the right structural fields. -/

/-- The `ListItem` built for a list line with item text `txt`. -/
def listItemOf (txt : List Char) : LNode :=
  createListItemNode [createParagraphNode (processTextWithMarkup txt)]

/-- Invariant carried through the line loop: all closed lists in
`children` are non-empty, all nodes emitted so far satisfy
`nodeFieldsOK`, and the open list (when present) is non-empty with
well-formed items. -/
def SegInv (st : SegState) : Prop :=
  (∀ n ∈ st.children, listNonempty n) ∧
  (∀ m ∈ collectNodes st.children, nodeFieldsOK m) ∧
  (∀ is, st.items = some is → is ≠ [] ∧ ∀ m ∈ collectNodes is, nodeFieldsOK m)

theorem segInv_initial : SegInv initialState := by
  refine ⟨?_, ?_, ?_⟩
  · intro n hn
    simp [initialState] at hn
  · intro m hm
    simp [initialState, collectNodes] at hm
  · intro is his
    simp [initialState] at his

theorem flushList_listNonempty {st : SegState} (h : SegInv st) :
    ∀ n ∈ flushList st, listNonempty n := by
  obtain ⟨hA, hB, hC⟩ := h
  intro n hn
  unfold flushList at hn
  cases his : st.items with
  | some is =>
    rw [his] at hn
    simp only [List.mem_append, List.mem_singleton] at hn
    rcases hn with hn | hn
    · exact hA n hn
    · subst hn
      exact (hC is his).1
  | none =>
    rw [his] at hn
    exact hA n hn

theorem flushList_fields {st : SegState} (h : SegInv st) :
    ∀ m ∈ collectNodes (flushList st), nodeFieldsOK m := by
  obtain ⟨hA, hB, hC⟩ := h
  intro m hm
  unfold flushList at hm
  cases his : st.items with
  | some is =>
    rw [his] at hm
    rw [collectNodes_append] at hm
    simp only [List.mem_append] at hm
    rcases hm with hm | hm
    · exact hB m hm
    · simp only [createListNode, collectNodes, collectNode, List.append_nil,
        List.mem_cons, List.not_mem_nil, or_false] at hm
      rcases hm with hm | hm
      · subst hm
        exact nodeFieldsOK_list _ _
      · exact (hC is his).2 m hm
  | none =>
    rw [his] at hm
    exact hB m hm

theorem fields_listItemOf (txt : List Char) :
    ∀ m ∈ collectNodes [listItemOf txt], nodeFieldsOK m := by
  intro m hm
  simp only [listItemOf, createListItemNode, createParagraphNode, collectNodes, collectNode,
    List.append_nil, List.mem_cons] at hm
  rcases hm with hm | hm | hm
  · subst hm
    exact nodeFieldsOK_listitem _
  · subst hm
    exact nodeFieldsOK_paragraph _
  · exact fields_processTextWithMarkup txt m hm

theorem segInv_handleListLine {st : SegState} (h : SegInv st) (lt : LType)
    (txt : List Char) : SegInv (handleListLine st lt txt) := by
  obtain ⟨hA, hB, hC⟩ := h
  unfold handleListLine
  rcases hcond : (st.items.isNone || decide (st.ltype ≠ some lt)) with - | -
  · -- list continues: items are present and of the same kind
    simp only [hcond, Bool.false_eq_true, if_false]
    have hsome : st.items.isSome = true := by
      rcases his : st.items with - | is
      · rw [his] at hcond
        simp at hcond
      · simp
    obtain ⟨is, his⟩ := Option.isSome_iff_exists.mp hsome
    refine ⟨hA, hB, ?_⟩
    intro is2 his2
    simp only [his, Option.getD_some] at his2
    obtain rfl : is ++ [listItemOf txt] = is2 := by
      simpa [listItemOf, createListItemNode, createParagraphNode] using his2
    constructor
    · simp
    · intro m hm
      rw [collectNodes_append] at hm
      simp only [List.mem_append] at hm
      rcases hm with hm | hm
      · exact (hC is his).2 m hm
      · exact fields_listItemOf txt m hm
  · -- close the previous list (if any) and open a fresh one
    simp only [hcond, if_true]
    refine ⟨flushList_listNonempty ⟨hA, hB, hC⟩, flushList_fields ⟨hA, hB, hC⟩, ?_⟩
    intro is2 his2
    simp only [Option.getD_some] at his2
    obtain rfl : [listItemOf txt] = is2 := by
      simpa [listItemOf, createListItemNode, createParagraphNode] using his2
    constructor
    · simp
    · exact fields_listItemOf txt

theorem segInv_append_block {st : SegState} (h : SegInv st) (b : LNode)
    (hb1 : listNonempty b) (hb2 : ∀ m ∈ collectNode b, nodeFieldsOK m) :
    SegInv ⟨flushList st ++ [b], none, none⟩ := by
  refine ⟨?_, ?_, ?_⟩
  · intro n hn
    simp only [List.mem_append, List.mem_singleton] at hn
    rcases hn with hn | hn
    · exact flushList_listNonempty h n hn
    · subst hn
      exact hb1
  · intro m hm
    simp only at hm
    rw [collectNodes_append] at hm
    simp only [List.mem_append] at hm
    rcases hm with hm | hm
    · exact flushList_fields h m hm
    · simp only [collectNodes, List.append_nil] at hm
      exact hb2 m hm
  · intro is his
    simp at his

theorem listNonempty_classifyBlock (t : List Char) : listNonempty (classifyBlock t) := by
  unfold classifyBlock
  split
  · trivial
  · split
    · trivial
    · split
      · trivial
      · split
        · trivial
        · trivial

theorem fields_classifyBlock (t : List Char) :
    ∀ m ∈ collectNode (classifyBlock t), nodeFieldsOK m := by
  intro m hm
  unfold classifyBlock at hm
  split at hm
  · simp only [collectNode, List.mem_singleton] at hm
    subst hm
    exact nodeFieldsOK_horizontalrule
  · split at hm
    · simp only [collectNode, List.mem_cons] at hm
      rcases hm with hm | hm
      · subst hm
        exact nodeFieldsOK_heading _ _
      · exact fields_processTextWithMarkup _ m hm
    · split at hm
      · simp only [collectNode, collectNodes, createParagraphNode, List.append_nil,
          List.mem_cons, List.not_mem_nil, or_false] at hm
        rcases hm with hm | hm | hm
        · subst hm
          exact nodeFieldsOK_quote _
        · subst hm
          exact nodeFieldsOK_paragraph _
        · exact fields_processTextWithMarkup _ m hm
      · split at hm
        · simp only [collectNode, List.mem_singleton] at hm
          subst hm
          exact nodeFieldsOK_image _ _
        · simp only [createParagraphNode, collectNode, List.mem_cons] at hm
          rcases hm with hm | hm
          · subst hm
            exact nodeFieldsOK_paragraph _
          · exact fields_processTextWithMarkup _ m hm

theorem segInv_processLine {st : SegState} (h : SegInv st) (l : List Char) :
    SegInv (processLine st l) := by
  simp only [processLine]
  cases hb : bulletMatch (trim l) with
  | some tx => exact segInv_handleListLine h .bullet tx
  | none =>
    cases hn : numberMatch (trim l) with
    | some tx => exact segInv_handleListLine h .number tx
    | none =>
      exact segInv_append_block h _ (listNonempty_classifyBlock _) (fields_classifyBlock _)

theorem foldl_preserve {α β : Type} (P : α → Prop) (f : α → β → α)
    (hf : ∀ a b, P a → P (f a b)) : ∀ (l : List β) (a : α), P a → P (l.foldl f a) := by
  intro l
  induction l with
  | nil => intro a ha; simpa using ha
  | cons x xs ih =>
    intro a ha
    simpa using ih (f a x) (hf a x ha)

theorem segInv_segment (content : List Char) :
    (∀ n ∈ segmentChildren content, listNonempty n) ∧
    (∀ m ∈ collectNodes (segmentChildren content), nodeFieldsOK m) := by
  have hinv : SegInv ((paragraphBlocks content).foldl
      (fun st b => (blockLines b).foldl processLine st) initialState) := by
    refine foldl_preserve SegInv _ ?_ _ _ segInv_initial
    intro a b ha
    exact foldl_preserve SegInv processLine (fun a b ha => segInv_processLine ha b) _ a ha
  exact ⟨flushList_listNonempty hinv, flushList_fields hinv⟩

/-! ### Auxiliary facts used by the claim theorems. -/

theorem foldl_flatMap_blocks (bs : List (List Char)) (st : SegState) :
    (bs.flatMap blockLines).foldl processLine st =
      bs.foldl (fun st b => (blockLines b).foldl processLine st) st := by
  induction bs generalizing st with
  | nil => simp
  | cons b bs ih => simp [List.flatMap_cons, List.foldl_append, ih]

theorem bulletMatch_none_of_numberMatch {t tc : List Char}
    (h : numberMatch t = some tc) : bulletMatch t = none := by
  rcases t with - | ⟨c, u⟩
  · simp [numberMatch, List.takeWhile] at h
  · cases hcd : c.isDigit with
    | false =>
      exfalso
      rw [numberMatch] at h
      simp [List.takeWhile_cons, hcd] at h
    | true =>
      have h1 : c ≠ '-' := by
        intro e
        subst e
        simp [Char.isDigit] at hcd
      have h2 : c ≠ '*' := by
        intro e
        subst e
        simp [Char.isDigit] at hcd
      simp [bulletMatch, h1, h2]

/-! ### The claims. -/

/-- C2 (confirmed): for every input string the conversion terminates
(`parseMarkdownToMobiledoc` is a total Lean function) and its value is a
single root document object wrapping the block sequence, as serialized
for `JSON.stringify`. -/
theorem segment_total (content : List Char) :
    ∃ js, parseMarkdownToMobiledoc content = Json.obj [("root", Json.obj
      [("type", .str "root"), ("children", .arr js), ("direction", .str "ltr"),
       ("format", .num 0), ("indent", .num 0), ("version", .num 1)])] :=
  ⟨nodesToJson (segmentChildren content), rfl⟩

/-- C8 (confirmed): every list node in the produced children sequence is
non-empty, for every input string. -/
theorem lists_never_empty (content : List Char) :
    ∀ n ∈ segmentChildren content, listNonempty n :=
  (segInv_segment content).1

/-- C10 (confirmed): the open-list accumulator persists across
blank-line block boundaries: segmentation equals a single line fold over
the concatenation of all block lines, and a bullet line separated from
another bullet line by a blank line still yields one two-item list. -/
theorem list_state_persists_across_blocks :
    (∀ content : List Char, segmentChildren content =
      flushList (((paragraphBlocks content).flatMap blockLines).foldl
        processLine initialState)) ∧
    segmentChildren "- a\n\n- b".toList =
      [createListNode [listItemOf "a".toList, listItemOf "b".toList] (some .bullet)] := by
  constructor
  · intro content
    unfold segmentChildren
    rw [foldl_flatMap_blocks]
  · rfl

/-- C7 (confirmed): from a state with no open list, two bullet lines
produce one list with two items, while a bullet line followed by an
ordered-list line produces two lists in document order, the bullet list
being closed and appended before the ordered list is opened. -/
theorem list_merge_and_split (st : SegState) (l1 l2 l3 ta tb tc : List Char)
    (hopen : st.items = none)
    (h1 : bulletMatch (trim l1) = some ta)
    (h2 : bulletMatch (trim l2) = some tb)
    (h3 : numberMatch (trim l3) = some tc) :
    flushList (processLine (processLine st l1) l2) =
      st.children ++ [createListNode [listItemOf ta, listItemOf tb] (some .bullet)] ∧
    flushList (processLine (processLine st l1) l3) =
      st.children ++ [createListNode [listItemOf ta] (some .bullet),
        createListNode [listItemOf tc] (some .number)] := by
  have e1 : processLine st l1 = ⟨st.children, some [listItemOf ta], some .bullet⟩ := by
    simp only [processLine, h1]
    simp [handleListLine, hopen, flushList, listItemOf]
  refine ⟨?_, ?_⟩
  · rw [e1]
    simp only [processLine, h2]
    simp [handleListLine, flushList, listItemOf]
  · rw [e1]
    simp only [processLine, bulletMatch_none_of_numberMatch h3, h3]
    simp [handleListLine, flushList, listItemOf]

/-- Witness for C7 at concrete inputs. -/
theorem list_merge_and_split_witness :
    (initialState.items = none ∧
      bulletMatch (trim "- a".toList) = some "a".toList ∧
      bulletMatch (trim "- b".toList) = some "b".toList ∧
      numberMatch (trim "1. c".toList) = some "c".toList) ∧
    flushList (processLine (processLine initialState "- a".toList) "- b".toList) =
      initialState.children ++
        [createListNode [listItemOf "a".toList, listItemOf "b".toList] (some .bullet)] ∧
    flushList (processLine (processLine initialState "- a".toList) "1. c".toList) =
      initialState.children ++
        [createListNode [listItemOf "a".toList] (some .bullet),
         createListNode [listItemOf "c".toList] (some .number)] :=
  ⟨⟨rfl, by decide, by decide, by decide⟩,
    list_merge_and_split initialState _ _ _ _ _ _ rfl (by decide) (by decide) (by decide)⟩

/-! ### Decomposition facts for the scanners (used for C1). -/

theorem tryBoldStar_decomp {t c rest : List Char}
    (h : tryBoldStar t = some (c, rest)) :
    t = '*' :: '*' :: (c ++ '*' :: '*' :: rest) := by
  unfold tryBoldStar at h
  split at h
  · rename_i u
    simp only at h
    split at h
    · exact absurd h (by simp)
    · split at h
      · rename_i rest' heq
        simp only [Option.some.injEq, Prod.mk.injEq] at h
        obtain ⟨rfl, rfl⟩ := h
        rw [← heq, List.takeWhile_append_dropWhile]
      · exact absurd h (by simp)
  · exact absurd h (by simp)

theorem tryBold_some_decomp {t c rest : List Char}
    (h : tryBold t = some (some c, rest)) :
    t = '*' :: '*' :: (c ++ '*' :: '*' :: rest) := by
  unfold tryBold at h
  split at h
  · rename_i c' rest' heq
    simp only [Option.some.injEq, Prod.mk.injEq] at h
    obtain ⟨rfl, rfl⟩ := h
    exact tryBoldStar_decomp heq
  · split at h
    · simp at h
    · exact absurd h (by simp)

theorem findBoldAux_some_decomp {acc t pre : List Char} {c rest : List Char}
    (h : findBoldAux acc t = some (pre, some c, rest)) :
    acc.reverse ++ t = pre ++ '*' :: '*' :: (c ++ '*' :: '*' :: rest) := by
  induction t generalizing acc with
  | nil => simp [findBoldAux] at h
  | cons x xs ih =>
    rw [findBoldAux] at h
    split at h
    · rename_i con r heq
      simp only [Option.some.injEq, Prod.mk.injEq] at h
      obtain ⟨rfl, rfl, rfl⟩ := h
      rw [tryBold_some_decomp heq]
    · have := ih h
      simpa using this

theorem findBold_some_decomp {t pre : List Char} {c rest : List Char}
    (h : findBold t = some (pre, some c, rest)) :
    t = pre ++ '*' :: '*' :: (c ++ '*' :: '*' :: rest) := by
  have h2 : findBoldAux [] t = some (pre, some c, rest) := h
  simpa using findBoldAux_some_decomp h2

theorem tryItalicCore_decomp {t c rest : List Char}
    (h : tryItalicCore t = some (c, rest)) :
    t = '*' :: (c ++ '*' :: rest) := by
  unfold tryItalicCore at h
  split at h
  · rename_i u
    simp only at h
    split at h
    · exact absurd h (by simp)
    · split at h
      · rename_i rest' heq
        split at h
        · simp only [Option.some.injEq, Prod.mk.injEq] at h
          obtain ⟨rfl, rfl⟩ := h
          rw [← heq, List.takeWhile_append_dropWhile]
        · exact absurd h (by simp)
      · exact absurd h (by simp)
  · exact absurd h (by simp)

theorem findItalicAux_decomp {acc t : List Char} {atStart : Bool} {pre c rest : List Char}
    (h : findItalicAux acc atStart t = some (pre, c, rest)) :
    acc.reverse ++ t = pre ++ '*' :: (c ++ '*' :: rest) := by
  induction t generalizing acc atStart with
  | nil => simp [findItalicAux] at h
  | cons x xs ih =>
    rw [findItalicAux] at h
    split at h
    · rename_i con r heq
      split at heq
      · simp only [Option.some.injEq, Prod.mk.injEq] at h
        obtain ⟨rfl, rfl, rfl⟩ := h
        rw [tryItalicCore_decomp heq]
      · exact absurd heq (by simp)
    · split at h
      · split at h
        · rename_i con r heq
          simp only [Option.some.injEq, Prod.mk.injEq] at h
          obtain ⟨rfl, rfl, rfl⟩ := h
          rw [tryItalicCore_decomp heq]
          simp
        · have := ih h
          simpa using this
      · have := ih h
        simpa using this

theorem findItalic_decomp {atStart : Bool} {t pre c rest : List Char}
    (h : findItalic atStart t = some (pre, c, rest)) :
    t = pre ++ '*' :: (c ++ '*' :: rest) := by
  have h2 : findItalicAux [] atStart t = some (pre, c, rest) := h
  simpa using findItalicAux_decomp h2

/-! ### The italic and star-bold passes only delete `*` characters, so
they commute with `deleteStyleChars`; a `__text__` match is the one
exception (its whole content disappears). -/

theorem delC_append (a b : List Char) :
    deleteStyleChars (a ++ b) = deleteStyleChars a ++ deleteStyleChars b := by
  simp [deleteStyleChars]

theorem delC_star_cons (l : List Char) :
    deleteStyleChars ('*' :: l) = deleteStyleChars l := by
  simp [deleteStyleChars]

theorem delC_visibleTextItalic (atStart : Bool) (t : List Char) :
    deleteStyleChars (visibleTextItalic atStart t) = deleteStyleChars t := by
  cases h : findItalic atStart t with
  | some x =>
    obtain ⟨pre, con, rest⟩ := x
    rw [visibleTextItalic_some h, findItalic_decomp h]
    have ih := delC_visibleTextItalic false rest
    conv_lhs => rw [delC_append, delC_append]
    conv_rhs => rw [delC_append, delC_star_cons, delC_append, delC_star_cons]
    rw [ih, List.append_assoc]
  | none =>
    rw [visibleTextItalic_none h]
termination_by t.length
decreasing_by exact findItalic_length h

theorem delC_visibleTextBold (t : List Char)
    (hno : createTextNode none 1 ∉ boldLoop t) :
    deleteStyleChars (visibleTextBold t) = deleteStyleChars t := by
  rcases ht : t.isEmpty with - | -
  · cases h : findBold t with
    | some x =>
      obtain ⟨pre, con, rest⟩ := x
      cases con with
      | none =>
        exfalso
        apply hno
        rw [boldLoop_some ht h]
        simp
      | some c =>
        have hno' : createTextNode none 1 ∉ boldLoop rest := by
          intro hmem
          apply hno
          rw [boldLoop_some ht h]
          simp [hmem]
        rw [visibleTextBold_some ht h, findBold_some_decomp h]
        have ih := delC_visibleTextBold rest hno'
        have hpre : deleteStyleChars (if pre.isEmpty then []
            else visibleTextItalic true pre) = deleteStyleChars pre := by
          rcases pre with - | ⟨d, ds⟩
          · simp [deleteStyleChars]
          · simp only [List.isEmpty_cons, Bool.false_eq_true, if_false]
            exact delC_visibleTextItalic true (d :: ds)
        simp only [Option.getD_some]
        conv_lhs => rw [delC_append, delC_append]
        conv_rhs => rw [delC_append, delC_star_cons, delC_star_cons, delC_append,
          delC_star_cons, delC_star_cons]
        rw [ih, hpre, List.append_assoc]
    | none =>
      rw [visibleTextBold_none ht h]
      exact delC_visibleTextItalic true t
  · have ht' : t = [] := List.isEmpty_iff.mp ht
    subst ht'
    rw [visibleTextBold]
    simp [deleteStyleChars]
termination_by t.length
decreasing_by exact findBold_length h

theorem delC_visibleText (t : List Char)
    (hno : createTextNode none 1 ∉ processTextWithMarkup t) :
    deleteStyleChars (visibleText t) = markdownStripped t := by
  unfold processTextWithMarkup at hno
  unfold markdownStripped
  cases h : findLink t with
  | some x =>
    obtain ⟨pre, lab, url, rest⟩ := x
    have hno' : createTextNode none 1 ∉ processTextWithMarkup rest := by
      intro hmem
      apply hno
      rw [linkLoop_some h]
      simp [processTextWithMarkup] at hmem
      simp [hmem]
    rw [visibleText_some h, linkOnlyStrip_some h]
    have ih := delC_visibleText rest hno'
    unfold markdownStripped at ih
    conv_lhs => rw [delC_append, delC_append]
    conv_rhs => rw [delC_append, delC_append]
    rw [ih]
  | none =>
    rw [visibleText_none h, linkOnlyStrip_none h]
    rcases ht : t.isEmpty with - | -
    · simp only [ht, Bool.false_eq_true, if_false]
      apply delC_visibleTextBold
      intro hmem
      apply hno
      rw [linkLoop_none h]
      simp [ht, hmem]
    · have ht' : t = [] := List.isEmpty_iff.mp ht
      subst ht'
      simp [deleteStyleChars]
termination_by t.length
decreasing_by exact findLink_length h

/-- C1 counterexample: on the line `__b__` the resolver emits a single
bold text node with no content (the source reads only capture group 1 of
the bold regex, which is `undefined` for the `__` alternative), so the
markup-stripped concatenation of its output is empty while the line with
Markdown syntax characters removed is `b`. -/
theorem content_preservation_counterexample :
    processTextWithMarkup "__b__".toList = [createTextNode none 1] ∧
    deleteStyleChars (inlineTexts (processTextWithMarkup "__b__".toList)) = [] ∧
    markdownStripped "__b__".toList = "b".toList ∧
    ([] : List Char) ≠ "b".toList := by
  have hne : ("__b__".toList).isEmpty = false := rfl
  have h1 : processTextWithMarkup "__b__".toList = [createTextNode none 1] := by
    unfold processTextWithMarkup
    rw [linkLoop_none (by decide)]
    simp only [hne, Bool.false_eq_true, if_false]
    rw [boldLoop_some hne
      (show findBold "__b__".toList = some ([], none, []) from by decide)]
    rw [boldLoop_nil]
    rfl
  refine ⟨h1, ?_, ?_, by decide⟩
  · rw [h1]
    rfl
  · unfold markdownStripped
    rw [linkOnlyStrip_none (by decide)]
    decide

/-- C1 (corrected): for every source line in which the resolver matches
no `__text__` bold span (equivalently, emits no text node with
`undefined` content), stripping the style markers from the concatenation
of all Text contents and Link label texts equals the original line with
Markdown syntax characters removed; a matched `__text__` span instead
loses its content entirely. -/
theorem content_preservation_amended (t : List Char)
    (hno : createTextNode none 1 ∉ processTextWithMarkup t) :
    deleteStyleChars (inlineTexts (processTextWithMarkup t)) = markdownStripped t := by
  rw [show inlineTexts (processTextWithMarkup t) = visibleText t from vis_linkLoop t]
  exact delC_visibleText t hno

/-- Witness for the amended C1 at the claim's own example line. -/
theorem content_preservation_amended_witness :
    createTextNode none 1 ∉ processTextWithMarkup "**b** see [l](u)".toList ∧
    deleteStyleChars (inlineTexts (processTextWithMarkup "**b** see [l](u)".toList)) =
      markdownStripped "**b** see [l](u)".toList := by
  have e1 : findLink "**b** see [l](u)".toList =
      some ("**b** see ".toList, "l".toList, "u".toList, ([] : List Char)) := by decide
  have h1 : processTextWithMarkup "**b** see [l](u)".toList =
      [createTextNode (some "**b** see ".toList),
       LNode.link "u".toList [createTextNode (some "l".toList)]] := by
    unfold processTextWithMarkup
    rw [linkLoop_some e1, linkLoop_none (show findLink ([] : List Char) = none from rfl)]
    rfl
  have hno : createTextNode none 1 ∉ processTextWithMarkup "**b** see [l](u)".toList := by
    rw [h1]
    simp [createTextNode]
  exact ⟨hno, content_preservation_amended _ hno⟩

/-- C3 counterexample: a line of four dashes is NOT a horizontal rule;
it falls through to a plain paragraph. -/
theorem hr_counterexample :
    segmentChildren "----".toList = [createParagraphNode (processTextWithMarkup "----".toList)] ∧
    segmentChildren "----".toList ≠ [LNode.horizontalrule] := by
  have h1 : segmentChildren "----".toList =
      [createParagraphNode (processTextWithMarkup "----".toList)] := rfl
  refine ⟨h1, ?_⟩
  rw [h1]
  simp [createParagraphNode]

/-- C3 (corrected): only a line that trims to exactly `---` produces a
`HorizontalRule` (with no inline content), closing any open list first. -/
theorem hr_amended (st : SegState) (line : List Char)
    (h : trim line = ['-', '-', '-']) :
    processLine st line = ⟨flushList st ++ [LNode.horizontalrule], none, none⟩ := by
  simp only [processLine, h]
  rfl

/-- Witness for the amended C3. -/
theorem hr_amended_witness :
    trim "---".toList = ['-', '-', '-'] ∧
    processLine initialState "---".toList =
      ⟨flushList initialState ++ [LNode.horizontalrule], none, none⟩ :=
  ⟨by decide, hr_amended initialState "---".toList (by decide)⟩

/-- C4 counterexample: a backtick-delimited span is not turned into a
code-styled text node; the resolver returns a single plain node whose
content still contains the backticks. -/
theorem inline_code_counterexample :
    processTextWithMarkup "`x`".toList = [createTextNode (some "`x`".toList)] ∧
    "`x`".toList ≠ "x".toList := by
  refine ⟨?_, by decide⟩
  unfold processTextWithMarkup
  rw [linkLoop_none (by decide)]
  have hne : ("`x`".toList).isEmpty = false := rfl
  simp only [hne, Bool.false_eq_true, if_false]
  rw [boldLoop_none hne (by decide)]
  unfold processItalicText
  rw [italicLoop_none (by decide)]
  simp only [hne, Bool.false_eq_true, if_false]
  rfl

/-- C4 (corrected): the resolver never emits a code format: every text
node of its output carries format 0 (plain), 1 (bold) or 2 (italic);
backtick spans are left as literal text. -/
theorem inline_code_amended (t : List Char) :
    fmtOKNodes (processTextWithMarkup t) = true :=
  fmt_linkLoop t

/-- C5 counterexample: in `**b** see [l](u)` the bold span precedes the
link, yet it is emitted as literal plain text (asterisks intact), not as
a bold-styled text node — links are extracted in a first pass over the
whole line, not in a single earliest-start scan. -/
theorem scan_order_counterexample :
    processTextWithMarkup "**b** see [l](u)".toList =
      [createTextNode (some "**b** see ".toList),
       LNode.link "u".toList [createTextNode (some "l".toList)]] ∧
    createTextNode (some "b".toList) 1 ∉ processTextWithMarkup "**b** see [l](u)".toList := by
  have e1 : findLink "**b** see [l](u)".toList =
      some ("**b** see ".toList, "l".toList, "u".toList, ([] : List Char)) := by decide
  have h1 : processTextWithMarkup "**b** see [l](u)".toList =
      [createTextNode (some "**b** see ".toList),
       LNode.link "u".toList [createTextNode (some "l".toList)]] := by
    unfold processTextWithMarkup
    rw [linkLoop_some e1, linkLoop_none (show findLink ([] : List Char) = none from rfl)]
    rfl
  refine ⟨h1, ?_⟩
  rw [h1]
  simp [createTextNode]

/-- C5 (corrected): the resolver is staged, not a single pass: whenever
a link is found, the whole text before it is emitted as one plain text
node with its markup characters kept literally, and only the remainder
is scanned further. -/
theorem scan_order_amended (t pre lab url rest : List Char)
    (h : findLink t = some (pre, lab, url, rest)) (hpre : pre ≠ []) :
    processTextWithMarkup t =
      createTextNode (some pre) :: LNode.link url [createTextNode (some lab)] ::
        linkLoop rest := by
  unfold processTextWithMarkup
  rw [linkLoop_some h]
  have hp : pre.isEmpty = false := by simpa [List.isEmpty_iff] using hpre
  simp [hp]

/-- Witness for the amended C5. -/
theorem scan_order_amended_witness :
    findLink "**b** see [l](u)".toList =
      some ("**b** see ".toList, "l".toList, "u".toList, ([] : List Char)) ∧
    "**b** see ".toList ≠ [] ∧
    processTextWithMarkup "**b** see [l](u)".toList =
      createTextNode (some "**b** see ".toList) ::
        LNode.link "u".toList [createTextNode (some "l".toList)] ::
          linkLoop ([] : List Char) :=
  ⟨by decide, by decide,
    scan_order_amended _ _ _ _ _ (by decide) (by decide)⟩

/-- C6 counterexample: the serialized horizontal-rule node of a real
output carries no `direction` (nor `format`/`indent`) field, so not
every block/inline object carries the four structural fields. -/
theorem structural_fields_counterexample :
    segmentChildren "---".toList = [LNode.horizontalrule] ∧
    getField (nodeToJson LNode.horizontalrule) "direction" = none ∧
    getField (nodeToJson (createTextNode (some "x".toList))) "direction" = none :=
  ⟨rfl, rfl, rfl⟩

/-- C6 (corrected): the root object has exactly the claimed shape, and
each node carries the structural fields its own serializer writes: text
nodes have `format` (their style code, 0/1/2) and `version` 1 but no
`direction`/`indent`; a horizontal rule has only `type` and `version`;
every other node has direction "ltr", format 0, indent 0, version 1. -/
theorem structural_fields_amended (content : List Char) :
    (∃ js, parseMarkdownToMobiledoc content = Json.obj [("root", Json.obj
      [("type", .str "root"), ("children", .arr js), ("direction", .str "ltr"),
       ("format", .num 0), ("indent", .num 0), ("version", .num 1)])]) ∧
    ∀ m ∈ collectNodes (segmentChildren content), nodeFieldsOK m :=
  ⟨⟨nodesToJson (segmentChildren content), rfl⟩, (segInv_segment content).2⟩

/-- C9 counterexample: on the empty string (which contains no recognized
markup) the resolver returns no nodes at all, not one plain text node. -/
theorem plain_idempotence_counterexample :
    processTextWithMarkup ([] : List Char) = [] ∧
    ([] : List LNode) ≠ [createTextNode (some ([] : List Char))] := by
  refine ⟨?_, by simp⟩
  unfold processTextWithMarkup
  rw [linkLoop_none (show findLink ([] : List Char) = none from rfl)]
  rfl

/-- C9 (corrected): on every NON-EMPTY string in which the resolver's
matchers find no link, no bold and no italic, the output is exactly one
plain text node carrying the string unchanged. -/
theorem plain_idempotence_amended (s : List Char) (hs : s ≠ [])
    (hL : findLink s = none) (hB : findBold s = none)
    (hI : findItalic true s = none) :
    processTextWithMarkup s = [createTextNode (some s)] := by
  have hne : s.isEmpty = false := by simpa [List.isEmpty_iff] using hs
  unfold processTextWithMarkup
  rw [linkLoop_none hL]
  simp only [hne, Bool.false_eq_true, if_false]
  rw [boldLoop_none hne hB]
  unfold processItalicText
  rw [italicLoop_none hI]
  simp only [hne, Bool.false_eq_true, if_false]
  rfl

/-- Witness for the amended C9. -/
theorem plain_idempotence_amended_witness :
    "hello".toList ≠ [] ∧
    findLink "hello".toList = none ∧
    findBold "hello".toList = none ∧
    findItalic true "hello".toList = none ∧
    processTextWithMarkup "hello".toList = [createTextNode (some "hello".toList)] :=
  ⟨by decide, by decide, by decide, by decide,
    plain_idempotence_amended _ (by decide) (by decide) (by decide) (by decide)⟩

/-- Witness for C8 at a concrete input and a concrete list node. -/
theorem lists_never_empty_witness :
    createListNode [listItemOf "a".toList] (some .bullet) ∈ segmentChildren "- a".toList ∧
    listNonempty (createListNode [listItemOf "a".toList] (some .bullet)) := by
  have hmem : createListNode [listItemOf "a".toList] (some .bullet) ∈
      segmentChildren "- a".toList := by
    rw [show segmentChildren "- a".toList =
      [createListNode [listItemOf "a".toList] (some .bullet)] from rfl]
    exact List.mem_singleton.mpr rfl
  exact ⟨hmem, lists_never_empty "- a".toList _ hmem⟩

end GhostyPosty
